import Mathlib

/-!
Shallow embedding of the core middleware of the `tower-async` repository:
the concurrency-limit policy and middleware (`tower-async/src/limit`), the
retry middleware (`tower-async/src/retry`), the timeout middleware
(`tower-async/src/timeout`) and the classic/async bridge wrappers
(`tower-async-bridge/src`).  Machine integers (`usize`) are modelled as
`Nat`; fallible or panicking code returns `Option`; asynchronous
interleaving is modelled by explicit event traces over a shared state.
-/

namespace TowerAsync

/-! ## ConcurrentPolicy (tower-async/src/limit/policy/concurrent.rs)

The policy owns `max : usize` and a shared counter `current : Arc<Mutex<usize>>`.
We record, next to the counter, the bookkeeping needed to speak about guards:
`nextId` numbers the `ConcurrentGuard` values ever issued and `live` lists the
guards that have been issued but not yet dropped.  The counter mutations are
exactly those of the source; `nextId`/`live` are ghost state used only to
state the balance invariant. -/

structure CPState where
  current : Nat
  nextId : Nat
  live : List Nat
deriving DecidableEq

/-- Result of `ConcurrentPolicy::check`: either `Ready(guard)` (the slot was
acquired, `current` incremented), or the limit was reached — `Abort(LimitReached)`
in the non-backoff variant, `Retry(backoff)` in the backoff variant; both leave
the counter untouched. -/
inductive CheckResult where
  | ready (g : Nat)
  | full
deriving DecidableEq

/-- Embedding of `ConcurrentPolicy::check` (concurrent.rs lines 103-116 and
137-150; both variants mutate the counter identically): lock the counter, and
if `current < max` increment it and issue a fresh guard, else leave it alone. -/
def ConcurrentPolicy.check (max : Nat) (s : CPState) : CheckResult × CPState :=
  if s.current < max then
    (CheckResult.ready s.nextId,
      { current := s.current + 1, nextId := s.nextId + 1, live := s.nextId :: s.live })
  else
    (CheckResult.full, s)

/-- Embedding of `impl Drop for ConcurrentGuard` (concurrent.rs lines 88-93):
lock the counter and decrement it; the guard `g` stops being live. -/
def ConcurrentGuard.drop (g : Nat) (s : CPState) : CPState :=
  { current := s.current - 1, nextId := s.nextId, live := s.live.erase g }

/-- An interleaving event at the policy level: some caller runs `check`, or
some issued guard is dropped.  Rust's ownership discipline runs a guard's
destructor at most once, and only for a guard that was issued: a `dropg g`
event is therefore only enabled while `g` is live. -/
inductive CPEvent where
  | check
  | dropg (g : Nat)
deriving DecidableEq

/-- One atomic step of the shared counter (each source operation holds the
mutex for its whole body, so steps interleave atomically). -/
def CPStepF (max : Nat) (s : CPState) : CPEvent → Option CPState
  | CPEvent.check => some (ConcurrentPolicy.check max s).2
  | CPEvent.dropg g => if g ∈ s.live then some (ConcurrentGuard.drop g s) else none

/-- Run a sequence of interleaved `check`/drop events from a state. -/
def CPRun (max : Nat) : CPState → List CPEvent → Option CPState
  | s, [] => some s
  | s, e :: tr =>
    match CPStepF max s e with
    | some s' => CPRun max s' tr
    | none => none

/-- State of a freshly built policy: `ConcurrentPolicy::new(max)` and
`ConcurrentPolicy::with_backoff(max, b)` both start the shared counter at 0
with no guards issued. -/
def cpInit : CPState := { current := 0, nextId := 0, live := [] }

/-- Strengthened inductive invariant of the shared counter. -/
def CPInv (max : Nat) (s : CPState) : Prop :=
  s.current = s.live.length ∧ s.current ≤ max ∧ s.live.Nodup ∧ ∀ g ∈ s.live, g < s.nextId

theorem cpInv_init (max : Nat) : CPInv max cpInit := by
  refine ⟨rfl, Nat.zero_le _, List.nodup_nil, ?_⟩
  intro g hg
  simp [cpInit] at hg

theorem cpStep_preserves (max : Nat) (s s' : CPState) (e : CPEvent)
    (hstep : CPStepF max s e = some s') (hinv : CPInv max s) : CPInv max s' := by
  obtain ⟨hlen, hle, hnd, hfresh⟩ := hinv
  cases e with
  | check =>
    simp only [CPStepF, ConcurrentPolicy.check] at hstep
    by_cases h : s.current < max
    · rw [if_pos h] at hstep
      obtain rfl := Option.some.inj hstep
      refine ⟨by simp [hlen], h, ?_, ?_⟩
      · refine List.nodup_cons.mpr ⟨?_, hnd⟩
        intro hmem
        exact absurd (hfresh _ hmem) (lt_irrefl _)
      · intro g hg
        rcases List.mem_cons.mp hg with rfl | hg
        · exact Nat.lt_succ_self _
        · exact Nat.lt_succ_of_lt (hfresh _ hg)
    · rw [if_neg h] at hstep
      obtain rfl := Option.some.inj hstep
      exact ⟨hlen, hle, hnd, hfresh⟩
  | dropg g =>
    simp only [CPStepF] at hstep
    by_cases h : g ∈ s.live
    · rw [if_pos h] at hstep
      obtain rfl := Option.some.inj hstep
      refine ⟨?_, ?_, hnd.erase g, ?_⟩
      · simp [ConcurrentGuard.drop, List.length_erase_of_mem h, hlen]
      · exact Nat.le_trans (Nat.sub_le _ _) hle
      · intro g' hg'
        exact hfresh g' (List.mem_of_mem_erase hg')
    · rw [if_neg h] at hstep
      exact absurd hstep (by simp)

theorem cpRun_preserves (max : Nat) (tr : List CPEvent) (s₀ s : CPState)
    (h₀ : CPInv max s₀) (hrun : CPRun max s₀ tr = some s) : CPInv max s := by
  induction tr generalizing s₀ with
  | nil =>
    simp only [CPRun] at hrun
    obtain rfl := Option.some.inj hrun
    exact h₀
  | cons e tr ih =>
    simp only [CPRun] at hrun
    cases hstep : CPStepF max s₀ e with
    | none => rw [hstep] at hrun; exact absurd hrun (by simp)
    | some s₁ =>
      rw [hstep] at hrun
      exact ih s₁ (cpStep_preserves max s₀ s₁ e hstep h₀) hrun

/-- C2: for every maximum `max` and every interleaved sequence of
`ConcurrentPolicy::check` calls and `ConcurrentGuard` drops starting from a
fresh policy, the reached counter satisfies `0 ≤ current ≤ max` (the lower
bound is inherent to `Nat`), `current` equals the number of
issued-but-not-yet-dropped guards, and dropping any live guard decrements
`current` by exactly one and removes that guard for good. -/
theorem concurrent_policy_guard_balance (max : Nat) (tr : List CPEvent) (s : CPState)
    (hrun : CPRun max cpInit tr = some s) :
    s.current = s.live.length ∧ s.current ≤ max ∧
      ∀ g ∈ s.live,
        (ConcurrentGuard.drop g s).current + 1 = s.current ∧
          g ∉ (ConcurrentGuard.drop g s).live := by
  obtain ⟨hlen, hle, hnd, _⟩ := cpRun_preserves max tr cpInit s (cpInv_init max) hrun
  refine ⟨hlen, hle, ?_⟩
  intro g hg
  constructor
  · have hpos : 1 ≤ s.current := by
      rw [hlen]
      exact List.length_pos_of_mem hg
    simp only [ConcurrentGuard.drop]
    omega
  · simp only [ConcurrentGuard.drop]
    intro hmem
    exact absurd ((hnd.mem_erase_iff).mp hmem).1 (by simp)

/-- Witness for C2 at a concrete trace: `max = 1`, one `check` (admitted) from
the fresh policy reaches the state with `current = 1` and one live guard. -/
theorem concurrent_policy_guard_balance_witness :
    ({ current := 1, nextId := 1, live := [0] } : CPState).current = 1 ∧
      ({ current := 1, nextId := 1, live := [0] } : CPState).current ≤ 1 ∧
      ∀ g ∈ ({ current := 1, nextId := 1, live := [0] } : CPState).live,
        (ConcurrentGuard.drop g { current := 1, nextId := 1, live := [0] }).current + 1 = 1 ∧
          g ∉ (ConcurrentGuard.drop g { current := 1, nextId := 1, live := [0] }).live := by
  have h := concurrent_policy_guard_balance 1 [CPEvent.check]
    { current := 1, nextId := 1, live := [0] } (by decide)
  simpa using h

/-! ## Limit middleware in-flight bound (tower-async/src/limit/mod.rs lines 53-65)

Each call through `Limit::call` is one task.  In the `Ready(guard)` arm the
source reads `let _ = guard; return self.inner.call(request).await.map_err(..)`.
In Rust a wildcard `let _ = guard` binding does not move the guard: the guard
stays owned by the match-arm binding and its destructor runs only when the
arm's scope is left, i.e. after the inner `.await` has resolved and the return
value has been computed.  A task therefore passes through the phases: checking
(looping on `policy.check`), inflight (admitted, guard held, inner call
running), resolved (inner call resolved, guard not yet dropped), done (guard
dropped, counter decremented).  A task whose `check` yields `Abort` ends
aborted without touching the inner service. -/

inductive LPhase where
  | checking
  | inflight
  | resolved
  | done
  | aborted
deriving DecidableEq

structure LMState where
  current : Nat
  tasks : List LPhase
deriving DecidableEq

/-- An interleaving event of the limit middleware: task `t` is admitted by
`check` (counter incremented, inner call starts), rejected by `check` (counter
full; `Abort` arm), its inner call resolves (guard still held), or it returns
(guard dropped, counter decremented). -/
inductive LEvent where
  | accept (t : Nat)
  | reject (t : Nat)
  | resolve (t : Nat)
  | finish (t : Nat)
deriving DecidableEq

def LMStepF (max : Nat) (s : LMState) : LEvent → Option LMState
  | LEvent.accept t =>
    if s.tasks.get? t = some LPhase.checking ∧ s.current < max then
      some { current := s.current + 1, tasks := s.tasks.set t LPhase.inflight }
    else none
  | LEvent.reject t =>
    if s.tasks.get? t = some LPhase.checking ∧ ¬s.current < max then
      some { current := s.current, tasks := s.tasks.set t LPhase.aborted }
    else none
  | LEvent.resolve t =>
    if s.tasks.get? t = some LPhase.inflight then
      some { current := s.current, tasks := s.tasks.set t LPhase.resolved }
    else none
  | LEvent.finish t =>
    if s.tasks.get? t = some LPhase.resolved then
      some { current := s.current - 1, tasks := s.tasks.set t LPhase.done }
    else none

def LMRun (max : Nat) : LMState → List LEvent → Option LMState
  | s, [] => some s
  | s, e :: tr =>
    match LMStepF max s e with
    | some s' => LMRun max s' tr
    | none => none

/-- Initial state of `n` concurrent calls through one `Limit::new(S, policy)`:
shared counter at 0, every task about to run its first `check`. -/
def lmInit (n : Nat) : LMState := { current := 0, tasks := List.replicate n LPhase.checking }

/-- Number of tasks currently in phase `p`. -/
def countPhase (p : LPhase) : List LPhase → Nat
  | [] => 0
  | q :: l => (if q = p then 1 else 0) + countPhase p l

theorem countPhase_set (p v w : LPhase) (l : List LPhase) (i : Nat)
    (h : l.get? i = some w) :
    countPhase p (l.set i v) + (if w = p then 1 else 0)
      = countPhase p l + (if v = p then 1 else 0) := by
  induction l generalizing i with
  | nil => simp at h
  | cons q l ih =>
    cases i with
    | zero =>
      simp only [List.get?] at h
      obtain rfl := Option.some.inj h
      simp only [List.set, countPhase]
      omega
    | succ i =>
      simp only [List.get?] at h
      simp only [List.set, countPhase]
      have := ih i h
      omega

theorem countPhase_pos (p : LPhase) (l : List LPhase) (i : Nat)
    (h : l.get? i = some p) : 1 ≤ countPhase p l := by
  induction l generalizing i with
  | nil => simp at h
  | cons q l ih =>
    cases i with
    | zero =>
      simp only [List.get?] at h
      obtain rfl := Option.some.inj h
      simp [countPhase]
    | succ i =>
      simp only [List.get?] at h
      have := ih i h
      simp only [countPhase]
      omega

/-- Inductive invariant of the limit middleware: the counter equals the number
of tasks holding a (still undropped) guard — those whose inner call is running
plus those whose inner call has resolved but whose guard has not yet been
dropped — and the counter never exceeds `max`. -/
def LMInv (max : Nat) (s : LMState) : Prop :=
  s.current = countPhase LPhase.inflight s.tasks + countPhase LPhase.resolved s.tasks ∧
    s.current ≤ max

theorem lmStep_preserves (max : Nat) (s s' : LMState) (e : LEvent)
    (hstep : LMStepF max s e = some s') (hinv : LMInv max s) : LMInv max s' := by
  obtain ⟨hcnt, hle⟩ := hinv
  cases e with
  | accept t =>
    simp only [LMStepF] at hstep
    split at hstep
    next h =>
      obtain rfl := Option.some.inj hstep
      have h1 := countPhase_set LPhase.inflight LPhase.inflight LPhase.checking s.tasks t h.1
      have h2 := countPhase_set LPhase.resolved LPhase.inflight LPhase.checking s.tasks t h.1
      simp at h1 h2
      refine ⟨?_, h.2⟩
      dsimp only
      omega
    next => exact absurd hstep (by simp)
  | reject t =>
    simp only [LMStepF] at hstep
    split at hstep
    next h =>
      obtain rfl := Option.some.inj hstep
      have h1 := countPhase_set LPhase.inflight LPhase.aborted LPhase.checking s.tasks t h.1
      have h2 := countPhase_set LPhase.resolved LPhase.aborted LPhase.checking s.tasks t h.1
      simp at h1 h2
      refine ⟨?_, hle⟩
      dsimp only
      omega
    next => exact absurd hstep (by simp)
  | resolve t =>
    simp only [LMStepF] at hstep
    split at hstep
    next h =>
      obtain rfl := Option.some.inj hstep
      have h1 := countPhase_set LPhase.inflight LPhase.resolved LPhase.inflight s.tasks t h
      have h2 := countPhase_set LPhase.resolved LPhase.resolved LPhase.inflight s.tasks t h
      simp at h1 h2
      refine ⟨?_, hle⟩
      dsimp only
      omega
    next => exact absurd hstep (by simp)
  | finish t =>
    simp only [LMStepF] at hstep
    split at hstep
    next h =>
      obtain rfl := Option.some.inj hstep
      have h1 := countPhase_set LPhase.inflight LPhase.done LPhase.resolved s.tasks t h
      have h2 := countPhase_set LPhase.resolved LPhase.done LPhase.resolved s.tasks t h
      have h3 := countPhase_pos LPhase.resolved s.tasks t h
      simp at h1 h2
      refine ⟨?_, Nat.le_trans (Nat.sub_le _ _) hle⟩
      dsimp only
      omega
    next => exact absurd hstep (by simp)

theorem lmRun_preserves (max : Nat) (tr : List LEvent) (s₀ s : LMState)
    (h₀ : LMInv max s₀) (hrun : LMRun max s₀ tr = some s) : LMInv max s := by
  induction tr generalizing s₀ with
  | nil =>
    simp only [LMRun] at hrun
    obtain rfl := Option.some.inj hrun
    exact h₀
  | cons e tr ih =>
    simp only [LMRun] at hrun
    cases hstep : LMStepF max s₀ e with
    | none => rw [hstep] at hrun; exact absurd hrun (by simp)
    | some s₁ =>
      rw [hstep] at hrun
      exact ih s₁ (lmStep_preserves max s₀ s₁ e hstep h₀) hrun

theorem lmInv_init (max n : Nat) : LMInv max (lmInit n) := by
  constructor
  · induction n with
    | zero => simp [lmInit, countPhase]
    | succ n ih =>
      simp [lmInit, List.replicate, countPhase] at ih ⊢
      omega
  · exact Nat.zero_le _

/-- C1: for any number `n` of concurrent calls through `Limit::new(S, policy)`
with a `ConcurrentPolicy` of maximum `max`, after any interleaving of
admission checks, rejections, inner-call resolutions and guard drops, at most
`max` calls to the inner service are in flight; indeed the counter bounds the
tasks that still hold their guard (inflight or resolved-but-not-yet-dropped),
because an admitted call's guard is dropped only by the `finish` step, which
requires its inner invocation to have resolved. -/
theorem limit_concurrency_cap (max n : Nat) (tr : List LEvent) (s : LMState)
    (hrun : LMRun max (lmInit n) tr = some s) :
    countPhase LPhase.inflight s.tasks ≤ max := by
  obtain ⟨hcnt, hle⟩ := lmRun_preserves max tr (lmInit n) s (lmInv_init max n) hrun
  omega

/-- Witness for C1 at a concrete interleaving: `max = 1`, two tasks, the first
admitted while the second must wait; one inner call in flight. -/
theorem limit_concurrency_cap_witness :
    countPhase LPhase.inflight
      ({ current := 1, tasks := [LPhase.inflight, LPhase.checking] } : LMState).tasks ≤ 1 :=
  limit_concurrency_cap 1 2 [LEvent.accept 0]
    { current := 1, tasks := [LPhase.inflight, LPhase.checking] } (by decide)

/-! ## Limit::call composed with the non-backoff ConcurrentPolicy (C9)

`Limit<T, ConcurrentPolicy<()>>::call` (limit/mod.rs lines 53-65 with the
`check` of concurrent.rs lines 137-150).  The middleware's error type is the
boxed `BoxError`; we model the type-erased box by a sum that remembers which
concrete error it holds, so that downcasting is expressible. -/

/-- Model of `tower_async::BoxError` restricted to the errors that can flow
out of `Limit`: the policy's typed `LimitReached`, or the inner service's own
error, each boxed via `Into<BoxError>`. -/
inductive BoxError (E : Type) where
  | limitReached
  | inner (e : E)
deriving DecidableEq

/-- Model of `err.downcast_ref::<LimitReached>().is_some()` on the boxed error. -/
def BoxError.isLimitReached {E : Type} : BoxError E → Bool
  | BoxError.limitReached => true
  | BoxError.inner _ => false

/-- Embedding of `Limit::call` for the non-backoff `ConcurrentPolicy<()>`,
whose `check` never returns `Retry`, so the source loop runs exactly once:
on `Ready(guard)` the inner service is invoked (its error mapped into the box)
and the guard is dropped once the inner call has resolved; on
`Abort(LimitReached)` the boxed error is returned at once.  The third
component counts invocations of the inner service. -/
def Limit.callNoBackoff {Req Res E : Type} (max : Nat) (s : CPState)
    (inner : Req → Except E Res) (req : Req) :
    Except (BoxError E) Res × CPState × Nat :=
  match ConcurrentPolicy.check max s with
  | (CheckResult.ready g, s') =>
    let r := inner req
    (r.mapError BoxError.inner, ConcurrentGuard.drop g s', 1)
  | (CheckResult.full, s') => (Except.error BoxError.limitReached, s', 0)

/-- C9: whenever the non-backoff `ConcurrentPolicy`'s `check` runs while
`current` equals `max`, it returns `Abort(LimitReached)`, and `Limit::call`
returns that error immediately — boxed, but still downcastable to the typed
`LimitReached` — without invoking the inner service. -/
theorem limit_abort_when_full {Req Res E : Type} (max : Nat) (s : CPState)
    (inner : Req → Except E Res) (req : Req) (h : s.current = max) :
    (ConcurrentPolicy.check max s).1 = CheckResult.full ∧
      Limit.callNoBackoff max s inner req
        = (Except.error BoxError.limitReached, s, 0) ∧
      BoxError.isLimitReached (BoxError.limitReached : BoxError E) = true := by
  have hfull : (ConcurrentPolicy.check max s) = (CheckResult.full, s) := by
    simp [ConcurrentPolicy.check, h]
  refine ⟨by rw [hfull], ?_, rfl⟩
  simp [Limit.callNoBackoff, hfull]

/-- Witness for C9: a policy with `max = 1` whose counter is already at 1
rejects the call with the boxed `LimitReached`, inner service never invoked. -/
theorem limit_abort_when_full_witness :
    (ConcurrentPolicy.check 1 { current := 1, nextId := 1, live := [0] }).1
        = CheckResult.full ∧
      Limit.callNoBackoff 1 { current := 1, nextId := 1, live := [0] }
          (fun n : Nat => (Except.ok n : Except String Nat)) 7
        = (Except.error BoxError.limitReached, { current := 1, nextId := 1, live := [0] }, 0) ∧
      BoxError.isLimitReached (BoxError.limitReached : BoxError String) = true :=
  limit_abort_when_full 1 { current := 1, nextId := 1, live := [0] }
    (fun n : Nat => (Except.ok n : Except String Nat)) 7 rfl

/-! ## Limit::call with a backoff policy (C6)

For a backoff `ConcurrentPolicy<B>` (concurrent.rs lines 103-116), `check`
answers `Retry(self.backoff.next_backoff())` when the counter is full.  In
`Limit::call` (limit/mod.rs lines 53-65) the corresponding match arm is
`policy::PolicyOutput::Retry => ()`: the backoff future carried by `Retry` is
discarded and the loop immediately re-runs `check`.  We instrument the
embedding with ghost observations: `checks` counts invocations of `check`,
`made` counts the backoff futures produced by `next_backoff()` (future number
`i` is the `i`-th one made), and `awaited` lists the backoff futures the
caller awaited to completion before re-checking — per the source's `Retry`
arm, nothing is ever appended to it. -/

/-- Output of the backoff variant's `check`: `Ready(guard)` or
`Retry(next_backoff())`, the latter identified by the index of the produced
backoff future. -/
inductive CheckResultB where
  | ready (g : Nat)
  | retryFut (i : Nat)
deriving DecidableEq

/-- Embedding of the backoff `ConcurrentPolicy::check` (concurrent.rs lines
103-116); `made` is the number of backoff futures produced so far. -/
def ConcurrentPolicy.checkBackoff (max : Nat) (s : CPState) (made : Nat) :
    CheckResultB × CPState × Nat :=
  if s.current < max then
    (CheckResultB.ready s.nextId,
      { current := s.current + 1, nextId := s.nextId + 1, live := s.nextId :: s.live },
      made)
  else
    (CheckResultB.retryFut made, s, made + 1)

/-- Embedding of `Limit::call` for the backoff `ConcurrentPolicy<B>` (whose
`Error` is `Infallible`, so no `Abort` arm exists).  `fuel` bounds the loop
(the source loop has no bound of its own); a fuel-exhausted run returns
`none` as its first component while still reporting the ghost observations. -/
def Limit.callBackoff {Req Res E : Type} (max : Nat) (inner : Req → Except E Res)
    (req : Req) : Nat → CPState → Nat → Nat → List Nat →
    Option (Except (BoxError E) Res) × CPState × Nat × Nat × List Nat
  | 0, s, checks, made, awaited => (none, s, checks, made, awaited)
  | Nat.succ fuel, s, checks, made, awaited =>
    match ConcurrentPolicy.checkBackoff max s made with
    | (CheckResultB.ready g, s', made') =>
      let r := inner req
      (some (r.mapError BoxError.inner), ConcurrentGuard.drop g s', checks + 1, made', awaited)
    | (CheckResultB.retryFut _, s', made') =>
      Limit.callBackoff max inner req fuel s' (checks + 1) made' awaited

/-- C6 is violated by the source: with `ConcurrentPolicy::with_backoff(1, b)`
and the counter already full, three loop iterations invoke `check` three
times and produce three backoff futures, yet the list of backoff futures
awaited before the re-checks stays empty — the `Retry` arm of `Limit::call`
discards the future instead of awaiting it. -/
theorem limit_backoff_future_never_awaited :
    Limit.callBackoff 1 (fun n : Nat => (Except.ok n : Except String Nat)) 7
        3 { current := 1, nextId := 1, live := [0] } 0 0 []
      = (none, { current := 1, nextId := 1, live := [0] }, 3, 3, []) := by
  rfl

/-! ## Retry middleware (tower-async/src/retry/mod.rs lines 77-86)

The source body is

  let cloned = self.policy.clone_request(&request);
  loop {
      let result = self.service.call(request).await;
      match self.policy.retry(&cloned, &mut result).await {
          Some(_) => continue,
          None => return result,
      }
  }

so per iteration the inner service is invoked with the original `request`
(nothing ever substitutes the clone for it), `policy.retry` is invoked
unconditionally — it receives the clone by immutable borrow `&cloned`
(so a policy's request mutation cannot reach the caller) together with the
mutable `result` — and its answer only decides between continuing the loop
and returning the (possibly policy-mutated) result.  The policy carries an
explicit state `St` (the `&mut self` of the test-suite's `Policy` impls); the
continue/return answer is modelled as `Bool` (`true` ↔ the source's
`Some(_)` arm).  `inner i req` is the inner service's result for the `i`-th
invocation. -/

structure RetryPolicy (Req Res E St : Type) where
  clone_request : St → Req → Option Req
  retry : St → Option Req → Except E Res → Bool × Except E Res × St

/-- The `loop` of `Retry::call`, instrumented with the list of requests sent
to the inner service; `fuel` bounds the unbounded source loop (`none` means
the loop was still running). -/
def Retry.loop {Req Res E St : Type} (P : RetryPolicy Req Res E St)
    (inner : Nat → Req → Except E Res) :
    Nat → St → Option Req → Req → Nat → List Req →
    Option (Except E Res × List Req × St)
  | 0, _, _, _, _, _ => none
  | Nat.succ fuel, st, cloned, request, idx, acc =>
    let result := inner idx request
    match P.retry st cloned result with
    | (true, _, st') => Retry.loop P inner fuel st' cloned request (idx + 1) (acc ++ [request])
    | (false, result', st') => some (result', acc ++ [request], st')

/-- Embedding of `Retry::call`: clone the request once through the policy,
then run the loop. -/
def Retry.call {Req Res E St : Type} (P : RetryPolicy Req Res E St)
    (inner : Nat → Req → Except E Res) (fuel : Nat) (st : St) (request : Req) :
    Option (Except E Res × List Req × St) :=
  Retry.loop P inner fuel st (P.clone_request st request) request 0 []

/-- A policy whose `clone_request` always answers "cannot clone" and whose
`retry` counts its own invocations in the policy state, asking for one more
attempt on its first invocation and accepting afterwards. -/
def noClonePolicy : RetryPolicy String String String Nat :=
  { clone_request := fun _ _ => none
    retry := fun st _ r => (st == 0, r, st + 1) }

/-- C4 is violated by the source: with a policy that cannot clone the request,
`Retry::call` still invokes `policy.retry` after every attempt (the final
policy state 2 counts two invocations) and obeys its decision, performing a
second inner call — whereas the claim (and the `Policy::clone_request` doc
and the `CannotClone` test policy, whose `retry` is `unreachable!`) demand a
single inner call with `retry` never invoked. -/
theorem retry_no_clone_still_retries :
    Retry.call noClonePolicy (fun _ _ => Except.ok "ok") 5 0 "hello"
      = some (Except.ok "ok", ["hello", "hello"], 2) := by
  rfl

/-- Embedding of the test-suite's `MutatingPolicy::retry`
(tower-async/tests/retry/main.rs lines 188-206), with the `Policy` trait's own
signature `(&mut self, req: &mut Req, result: &mut Result<..>) -> bool`:
state is `remaining`; when exhausted it overwrites the result with
`Err("out of retries")` and accepts, otherwise it rewrites the request to
`"retrying"`, decrements `remaining` and asks to retry. -/
def MutatingPolicy.retryImpl (remaining : Nat) (req : String)
    (result : Except String String) : Bool × String × Except String String × Nat :=
  if remaining == 0 then (false, req, Except.error "out of retries", remaining)
  else (true, "retrying", result, remaining - 1)

/-- `MutatingPolicy` as seen from the call site of `Retry::call`: the site
passes `&cloned : &Option<Request>` immutably, so the rewritten request
returned by `retryImpl` is dropped on the floor; only the decision, the
result mutation and the state survive.  (`clone_request` is `Some(*req)` as
in the test.)  The `none` arm is unreachable for this policy since it always
clones. -/
def MutatingPolicy.site : RetryPolicy String String String Nat :=
  { clone_request := fun _ req => some req
    retry := fun st c r =>
      match c with
      | some q =>
        match MutatingPolicy.retryImpl st q r with
        | (b, _, r', st') => (b, r', st')
      | none => (false, r, st) }

/-- C5 is violated by the source: for the scenario with initial request
`"hello"` and `MutatingPolicy { remaining: 2 }` (inner service answering
`Ok("world")` to every attempt), there are indeed 3 inner calls and the final
error is `"out of retries"`, but the inner service observes
`"hello", "hello", "hello"`: the loop always re-sends the original request
and the policy's rewrite of the clone to `"retrying"` is lost through the
immutable `&cloned` borrow — the claim (and the repository's
`retry_mutating_policy` test) expect `"hello", "retrying", "retrying"`. -/
theorem retry_mutating_policy_requests :
    Retry.call MutatingPolicy.site (fun _ _ => Except.ok "world") 10 2 "hello"
      = some (Except.error "out of retries", ["hello", "hello", "hello"], 0) := by
  rfl

/-- A policy that always clones, whose `retry` decisions follow the
decision sequence `d` (invocation `i` answers `d i`) while mutating the result
by `m` and counting its invocations in the state. -/
def countingPolicy {Req Res E : Type} (d : Nat → Bool)
    (m : Nat → Except E Res → Except E Res) : RetryPolicy Req Res E Nat :=
  { clone_request := fun _ req => some req
    retry := fun st _ r => (d st, m st r, st + 1) }

theorem retry_loop_counting {Req Res E : Type} (K : Nat) (d : Nat → Bool)
    (hd : ∀ i, d i = decide (i < K)) (m : Nat → Except E Res → Except E Res)
    (inner : Nat → Req → Except E Res) (req : Req) (cloned : Option Req) :
    ∀ fuel idx acc, idx ≤ K → K + 1 - idx ≤ fuel →
      Retry.loop (countingPolicy d m) inner fuel idx cloned req idx acc
        = some (m K (inner K req), acc ++ List.replicate (K + 1 - idx) req, K + 1) := by
  intro fuel
  induction fuel with
  | zero =>
    intro idx acc hidx hfuel
    omega
  | succ fuel ih =>
    intro idx acc hidx hfuel
    simp only [Retry.loop, countingPolicy]
    rw [hd idx]
    by_cases h : idx < K
    · rw [decide_eq_true h]
      dsimp only
      have hrec := ih (idx + 1) (acc ++ [req]) (by omega) (by omega)
      simp only [countingPolicy] at hrec
      rw [hrec]
      have hrep : K + 1 - idx = (K - idx) + 1 := by omega
      have hrep' : K + 1 - (idx + 1) = K - idx := by omega
      rw [hrep, hrep', List.replicate_succ, List.append_assoc]
      simp
    · rw [decide_eq_false h]
      dsimp only
      have hidxK : idx = K := by omega
      rw [hidxK]
      have hrep : K + 1 - K = 1 := by omega
      rw [hrep]
      simp [List.replicate]

/-- C8: for every request (the policy always clones it) and every policy
whose `retry` answers "retry again" on its first `K` invocations and "accept"
on the `(K+1)`-th — while mutating the result arbitrarily via `m` —
`Retry::call` performs exactly `K + 1` inner service calls and returns the
final attempt's result as left by the policy's last `retry` invocation. -/
theorem retry_k_plus_one_calls {Req Res E : Type} (K : Nat) (d : Nat → Bool)
    (hd : ∀ i, d i = decide (i < K)) (m : Nat → Except E Res → Except E Res)
    (inner : Nat → Req → Except E Res) (req : Req) (fuel : Nat)
    (hf : K + 1 ≤ fuel) :
    Retry.call (countingPolicy d m) inner fuel 0 req
      = some (m K (inner K req), List.replicate (K + 1) req, K + 1) := by
  have h := retry_loop_counting K d hd m inner req (some req) fuel 0 []
    (Nat.zero_le _) (by omega)
  simpa [Retry.call, countingPolicy] using h

/-- Witness for C8 with `K = 1`: the first attempt errors, the policy retries
once, the second attempt succeeds; exactly 2 inner calls and the second
attempt's result is returned. -/
theorem retry_k_plus_one_calls_witness :
    Retry.call (countingPolicy (fun i => decide (i < 1))
        (fun _ r => r : Nat → Except String String → Except String String))
        (fun i _ => if i = 0 then Except.error "e" else Except.ok "w") 3 0 "hello"
      = some (Except.ok "w", List.replicate 2 "hello", 2) := by
  have h := retry_k_plus_one_calls 1 (fun i => decide (i < 1)) (fun _ => rfl)
    (fun _ r => r) (fun i _ => if i = 0 then Except.error "e" else Except.ok "w")
    "hello" 3 (by omega)
  simpa using h

/-! ## ClassicServiceWrapper — Consuming bridge variant
(tower-async-bridge/src/classic_wrapper.rs)

The wrapper holds the inner async service in an `Option` slot.  `poll_ready`
(lines 38-47) answers `Ready(Ok(()))` while the service is present and
`Ready(Err(ServiceConsumed))` once it has been taken.  `call` (lines 49-60)
takes the service out of the slot (`take().expect(..)` — a panic if it was
already consumed, which the classic readiness contract makes unreachable:
a classic caller must drive `poll_ready` to `Ok` before calling), invokes it
and maps its error into `ServiceError`.  The inner service is a pure
function `Req → Except E Res`; the wrapper state is the `Option` slot. -/

/-- Model of the error enum `ClassicServiceError` (classic_wrapper.rs lines
63-71). -/
inductive ClassicServiceError (E : Type) where
  | serviceConsumed
  | serviceError (e : E)
deriving DecidableEq

/-- Embedding of `ClassicServiceWrapper::poll_ready` (lines 38-47). -/
def ClassicServiceWrapper.poll_ready {Req Res E : Type}
    (s : Option (Req → Except E Res)) : Except (ClassicServiceError E) Unit :=
  match s with
  | some _ => Except.ok ()
  | none => Except.error ClassicServiceError.serviceConsumed

/-- Embedding of `ClassicServiceWrapper::call` (lines 49-60): take the
service (the `.expect` panic on an already-consumed slot is modelled by
`none`), invoke it once, map its error into `ServiceError`; the slot is left
empty regardless of the outcome.  The last component counts invocations of
the inner service. -/
def ClassicServiceWrapper.rawCall {Req Res E : Type}
    (s : Option (Req → Except E Res)) (req : Req) :
    Option (Except (ClassicServiceError E) Res × Option (Req → Except E Res) × Nat) :=
  match s with
  | some svc =>
    some ((svc req).mapError ClassicServiceError.serviceError, none, 1)
  | none => none

/-- One call through the wrapper as driven by a classic caller obeying the
tower contract: first `poll_ready`; on `Err` the error is returned at once
and `call` is never reached, on `Ok` the `call` step runs. -/
def ClassicServiceWrapper.drivenCall {Req Res E : Type}
    (s : Option (Req → Except E Res)) (req : Req) :
    Except (ClassicServiceError E) Res × Option (Req → Except E Res) × Nat :=
  match ClassicServiceWrapper.poll_ready s, s with
  | Except.error e, _ => (Except.error e, s, 0)
  | Except.ok _, some svc =>
    ((svc req).mapError ClassicServiceError.serviceError, none, 1)
  | Except.ok _, none => (Except.error ClassicServiceError.serviceConsumed, s, 0)

/-- C3: the first call through a Consuming-variant bridge wrapper takes the
inner service and returns its result with inner errors mapped to
`ServiceError`, leaving the slot consumed; every call against the consumed
slot fails immediately with `ServiceConsumed` (surfaced by `poll_ready`,
consistently with `rawCall`'s refusal) and never invokes the inner service. -/
theorem classic_wrapper_consuming {Req Res E : Type} (svc : Req → Except E Res)
    (r₁ : Req) :
    ClassicServiceWrapper.drivenCall (some svc) r₁
        = ((svc r₁).mapError ClassicServiceError.serviceError, none, 1) ∧
      (∀ r : Req,
        ClassicServiceWrapper.drivenCall (none : Option (Req → Except E Res)) r
          = (Except.error ClassicServiceError.serviceConsumed, none, 0)) ∧
      ClassicServiceWrapper.poll_ready (none : Option (Req → Except E Res))
        = Except.error ClassicServiceError.serviceConsumed ∧
      ClassicServiceWrapper.rawCall (none : Option (Req → Except E Res)) r₁ = none := by
  exact ⟨rfl, fun _ => rfl, rfl, rfl⟩

/-! ## Timeout middleware (tower-async/src/timeout/mod.rs lines 42-56)

`Timeout::call` races the inner call against `tokio::time::sleep(timeout)`
via `tokio::select!`.  Completion instants are modelled as `Nat`s: the inner
future resolves at instant `tin` with `r`, the sleep at instant `d`.  The
branch completing strictly first wins; when both complete at the same
instant, `select!` picks a random ready branch, modelled by the oracle
`tb`. -/

/-- Model of the boxed error leaving `Timeout`: the distinguished `Elapsed`
timeout error, or the inner service's own error forwarded through
`map_err(Into::into)`. -/
inductive TimeoutError (E : Type) where
  | elapsed
  | inner (e : E)
deriving DecidableEq

/-- Embedding of `Timeout::call`: whichever branch completes first determines
the outcome; the losing branch's future is dropped, so exactly one outcome is
ever produced. -/
def Timeout.call {Res E : Type} (d tin : Nat) (r : Except E Res) (tb : Bool) :
    Except (TimeoutError E) Res :=
  if tin < d then r.mapError TimeoutError.inner
  else if d < tin then Except.error TimeoutError.elapsed
  else if tb then r.mapError TimeoutError.inner
  else Except.error TimeoutError.elapsed

/-- C7: if the inner call resolves strictly before the deadline, its result —
success unmodified, or its native error forwarded (boxed) — is returned; if
the deadline elapses strictly first, the distinguished `Elapsed` error is
returned and, the inner future having been dropped, no inner-call result is
ever returned (in particular no success value can escape).  Both hold for
either tie-break oracle. -/
theorem timeout_race {Res E : Type} (d tin : Nat) (r : Except E Res) (tb : Bool) :
    (tin < d → Timeout.call d tin r tb = r.mapError TimeoutError.inner) ∧
      (d < tin → Timeout.call d tin r tb = Except.error TimeoutError.elapsed ∧
        ∀ v : Res, Timeout.call d tin r tb ≠ Except.ok v) := by
  constructor
  · intro h
    simp [Timeout.call, h]
  · intro h
    have h' : ¬tin < d := by omega
    constructor
    · simp [Timeout.call, h, h']
    · intro v
      simp [Timeout.call, h, h']

/-- Witness for C7: an inner success at instant 1 beats a deadline of 2 and
is returned unmodified; an inner completion at instant 3 loses to the
deadline of 2 and `Elapsed` is returned instead. -/
theorem timeout_race_witness :
    Timeout.call 2 1 (Except.ok "x" : Except String String) true = Except.ok "x" ∧
      Timeout.call 2 3 (Except.ok "x" : Except String String) true
        = Except.error TimeoutError.elapsed := by
  constructor
  · have h := (timeout_race 2 1 (Except.ok "x" : Except String String) true).1 (by omega)
    simpa using h
  · exact ((timeout_race 2 3 (Except.ok "x" : Except String String) true).2 (by omega)).1

/-! ## AsyncServiceWrapper — re-entrant bridge variant
(tower-async-bridge/src/into_async/async_wrapper.rs lines 42-46)

`call` is `self.inner.lock().await.ready().await?.call(request).await`: the
shared async mutex is acquired, then — while the guard temporary is alive,
i.e. until the end of the whole statement — the inner classic service's
readiness step and its call step run back-to-back, and the lock is released
only after the inner future has resolved.  Each concurrent call is a task
passing through the phases start → locked → readied → called → done, with
the shared lock cell recording the holder.  (On a readiness error the `?`
returns early and the guard is likewise dropped; that path only omits the
call step and is not needed for the interleaving property.) -/

inductive APhase where
  | start
  | locked
  | readied
  | called
  | done
deriving DecidableEq

structure AWState where
  lock : Option Nat
  tasks : List APhase
deriving DecidableEq

/-- The observable steps of a call through `AsyncServiceWrapper::call`:
task `t` acquires the mutex, performs the inner classic readiness step,
performs the inner call step, or completes (dropping the mutex guard). -/
inductive AEvent where
  | acquire (t : Nat)
  | ready (t : Nat)
  | call (t : Nat)
  | release (t : Nat)
deriving DecidableEq

def AWStepF (s : AWState) : AEvent → Option AWState
  | AEvent.acquire t =>
    if s.tasks.get? t = some APhase.start ∧ s.lock = none then
      some { lock := some t, tasks := s.tasks.set t APhase.locked }
    else none
  | AEvent.ready t =>
    if s.tasks.get? t = some APhase.locked ∧ s.lock = some t then
      some { lock := s.lock, tasks := s.tasks.set t APhase.readied }
    else none
  | AEvent.call t =>
    if s.tasks.get? t = some APhase.readied ∧ s.lock = some t then
      some { lock := s.lock, tasks := s.tasks.set t APhase.called }
    else none
  | AEvent.release t =>
    if s.tasks.get? t = some APhase.called ∧ s.lock = some t then
      some { lock := none, tasks := s.tasks.set t APhase.done }
    else none

def AWRun : AWState → List AEvent → Option AWState
  | s, [] => some s
  | s, e :: tr =>
    match AWStepF s e with
    | some s' => AWRun s' tr
    | none => none

/-- Initial state of `n` concurrent calls through one `AsyncServiceWrapper`
sharing the same `Arc<Mutex<S>>`. -/
def awInit (n : Nat) : AWState := { lock := none, tasks := List.replicate n APhase.start }

theorem list_get?_set_self {α : Type} (l : List α) (i : Nat) (v w : α)
    (h : l.get? i = some w) : (l.set i v).get? i = some v := by
  induction l generalizing i with
  | nil => simp at h
  | cons q l ih =>
    cases i with
    | zero => rfl
    | succ i =>
      simp only [List.get?] at h
      simpa [List.set, List.get?] using ih i h

theorem awRun_append (a b : List AEvent) (s sf : AWState)
    (h : AWRun s (a ++ b) = some sf) :
    ∃ s₁, AWRun s a = some s₁ ∧ AWRun s₁ b = some sf := by
  induction a generalizing s with
  | nil => exact ⟨s, rfl, h⟩
  | cons e a ih =>
    simp only [List.cons_append, AWRun] at h ⊢
    cases hstep : AWStepF s e with
    | none => rw [hstep] at h; exact absurd h (by simp)
    | some s' =>
      rw [hstep] at h
      exact ih s' h

/-- After task `t`'s readiness step, `t` holds the mutex and is in phase
`readied`. -/
theorem aw_ready_post (s s' : AWState) (t : Nat)
    (h : AWStepF s (AEvent.ready t) = some s') :
    s'.lock = some t ∧ s'.tasks.get? t = some APhase.readied := by
  simp only [AWStepF] at h
  split at h
  next hg =>
    obtain rfl := Option.some.inj h
    exact ⟨hg.2, list_get?_set_self s.tasks t APhase.readied APhase.locked hg.1⟩
  next => exact absurd h (by simp)

/-- While some task holds the mutex in phase `readied`, the only step any
task can take is that task's own call step: acquisition needs the lock free,
and readiness, call and release steps need both the lock and the matching
phase. -/
theorem aw_step_from_readied (s s' : AWState) (t : Nat) (e : AEvent)
    (hstep : AWStepF s e = some s') (hl : s.lock = some t)
    (hp : s.tasks.get? t = some APhase.readied) : e = AEvent.call t := by
  cases e with
  | acquire u =>
    simp only [AWStepF] at hstep
    split at hstep
    next hg => rw [hg.2] at hl; exact absurd hl (by simp)
    next => exact absurd hstep (by simp)
  | ready u =>
    simp only [AWStepF] at hstep
    split at hstep
    next hg =>
      have hu : u = t := by
        have := hg.2.symm.trans hl
        exact Option.some.inj this
      rw [hu] at hg
      rw [hg.1] at hp
      exact absurd (Option.some.inj hp) (by decide)
    next => exact absurd hstep (by simp)
  | call u =>
    simp only [AWStepF] at hstep
    split at hstep
    next hg =>
      have hu : u = t := by
        have := hg.2.symm.trans hl
        exact Option.some.inj this
      rw [hu]
    next => exact absurd hstep (by simp)
  | release u =>
    simp only [AWStepF] at hstep
    split at hstep
    next hg =>
      have hu : u = t := by
        have := hg.2.symm.trans hl
        exact Option.some.inj this
      rw [hu] at hg
      rw [hg.1] at hp
      exact absurd (Option.some.inj hp) (by decide)
    next => exact absurd hstep (by simp)

/-- C10: in every valid interleaving of calls through `AsyncServiceWrapper`,
if after task `t`'s readiness step another task `t'` performs its readiness
or call step, then `t`'s own call step already happened in between: no other
call's readiness or call step on the same inner service can interleave
between one call's readiness step and its call step. -/
theorem async_wrapper_serializes (n t t' : Nat) (tr₁ tr₂ tr₃ : List AEvent)
    (e : AEvent) (sf : AWState)
    (hrun : AWRun (awInit n) (tr₁ ++ AEvent.ready t :: (tr₂ ++ e :: tr₃)) = some sf)
    (he : e = AEvent.ready t' ∨ e = AEvent.call t') (hne : t' ≠ t) :
    AEvent.call t ∈ tr₂ := by
  obtain ⟨s₁, -, hrun₁⟩ := awRun_append tr₁ (AEvent.ready t :: (tr₂ ++ e :: tr₃))
    (awInit n) sf hrun
  simp only [AWRun] at hrun₁
  cases hstep : AWStepF s₁ (AEvent.ready t) with
  | none => rw [hstep] at hrun₁; exact absurd hrun₁ (by simp)
  | some s₂ =>
    rw [hstep] at hrun₁
    obtain ⟨hl₂, hp₂⟩ := aw_ready_post s₁ s₂ t hstep
    cases tr₂ with
    | nil =>
      simp only [List.nil_append, AWRun] at hrun₁
      cases hstep' : AWStepF s₂ e with
      | none => rw [hstep'] at hrun₁; exact absurd hrun₁ (by simp)
      | some s₃ =>
        have hcall := aw_step_from_readied s₂ s₃ t e hstep' hl₂ hp₂
        rcases he with rfl | rfl
        · exact absurd hcall (by simp)
        · exact absurd (AEvent.call.inj hcall) hne
    | cons f rest =>
      simp only [List.cons_append, AWRun] at hrun₁
      cases hstep' : AWStepF s₂ f with
      | none => rw [hstep'] at hrun₁; exact absurd hrun₁ (by simp)
      | some s₃ =>
        have hcall := aw_step_from_readied s₂ s₃ t f hstep' hl₂ hp₂
        rw [hcall]
        exact List.mem_cons_self _ _

/-- Witness for C10 at a concrete interleaving of two calls: after task 0's
readiness step, task 1's readiness step occurs only after task 0's call step
(and its release of the mutex). -/
theorem async_wrapper_serializes_witness :
    AEvent.call 0 ∈ [AEvent.call 0, AEvent.release 0, AEvent.acquire 1] :=
  async_wrapper_serializes 2 0 1 [AEvent.acquire 0]
    [AEvent.call 0, AEvent.release 0, AEvent.acquire 1]
    [AEvent.call 1, AEvent.release 1] (AEvent.ready 1)
    { lock := none, tasks := [APhase.done, APhase.done] }
    (by decide) (Or.inl rfl) (by decide)

end TowerAsync
